import Mathlib

/-!
Verification development for GoGrey (`main.go`), a command-line tool that
converts a JPEG/PNG/GIF image to greyscale with the luminosity method.

The embedding follows the Go source:

* Go `float64` arithmetic is modelled exactly: every `float64` value that
  occurs in the program is a rational number, and each operation rounds its
  exact rational result to 53 significand bits with round-to-nearest,
  ties-to-even (`rnd`).  The constants `0.299`, `0.587`, `0.114` are the
  `float64` values nearest to those decimals (`c299`, `c587`, `c114`).
  All values reached by the program lie well inside the normal range of
  `float64`, so neither subnormals nor overflow need to be modelled.
* `math.Round` (round half away from zero, exact on `float64`) is
  `roundHalfAway`.
* Go's non-constant `float64 → uint8` conversion truncates; for values the
  `uint8` cannot represent the Go specification leaves the result
  implementation-dependent, and the gc compiler converts through a 64-bit
  integer and keeps the low byte.  `uint8OfInt` models this as reduction
  mod 256 of the (already integral) rounded value.
* A `color.Color` is modelled by the quadruple its `RGBA()` method returns:
  four alpha-premultiplied 16-bit channels (`Color16`).
  `color.RGBAModel.Convert` shifts each channel right by 8 bits
  (`rgbaModelConvert`); the stdlib's shortcut for values that already are
  `color.RGBA` agrees with that arithmetic, so it needs no separate case.
* An `image.Image` is `GoImage`: a canonical bounds rectangle
  `[minX, minX+w) × [minY, minY+h)` plus the total method `At` (Go's `At`
  is defined at every coordinate; outside the bounds it returns whatever
  the implementation chooses, which the model keeps abstract by making
  `At` total).  The `image.RGBA` produced by `toGreyscale` is `RGBAImage`;
  its `At`/`pix` returns the stored pixel inside bounds and the zero pixel
  outside, exactly as `image.RGBA.At` does.
* Path computations (`filepath.Ext`, `strings.TrimSuffix` and the
  `fmt.Sprintf` assembling the output name) work on `List Char`, with `/`
  as the path separator (the Unix `os.IsPathSeparator`).
-/

set_option maxRecDepth 100000

/- Batteries marks the arithmetic on `Rat` `@[irreducible]`; the concrete
evaluations below (`decide`) need the operations to unfold. -/
attribute [local semireducible] Rat.mul Rat.add Rat.sub Rat.inv

/-! ### Exact model of IEEE-754 binary64 arithmetic -/

/-- Fuel-driven floor of the base-2 logarithm of a positive rational.
For `0 < q` with `1 ≤ q * 2 ^ fuel` and `q < 2 ^ fuel` it returns the unique
`k` with `2 ^ k ≤ q < 2 ^ (k+1)`. -/
def log2floor : ℕ → ℚ → ℤ
  | 0, _ => 0
  | fuel + 1, q =>
    if q < 1 then log2floor fuel (2 * q) - 1
    else if q < 2 then 0
    else log2floor fuel (q / 2) + 1

/-- Round a rational to the nearest integer, ties to even. -/
def roundHalfEven (m : ℚ) : ℤ :=
  if m - ⌊m⌋ < 1 / 2 then ⌊m⌋
  else if 1 / 2 < m - ⌊m⌋ then ⌊m⌋ + 1
  else if ⌊m⌋ % 2 = 0 then ⌊m⌋ else ⌊m⌋ + 1

/-- Round a positive rational to 53 significand bits, ties to even:
scale into `[2^52, 2^53)`, round to an integer significand, scale back. -/
def rndPos (q : ℚ) : ℚ :=
  if 52 ≤ log2floor 120 q then
    (roundHalfEven (q / 2 ^ (log2floor 120 q - 52).toNat) : ℚ) *
      2 ^ (log2floor 120 q - 52).toNat
  else
    (roundHalfEven (q * 2 ^ (52 - log2floor 120 q).toNat) : ℚ) /
      2 ^ (52 - log2floor 120 q).toNat

/-- Round an exact rational result to the nearest `float64`
(round-to-nearest, ties-to-even), for values in the normal range. -/
def rnd (q : ℚ) : ℚ :=
  if q < 0 then -rndPos (-q) else if q = 0 then 0 else rndPos q

/-- `float64` multiplication: exact product, correctly rounded. -/
def fmul (a b : ℚ) : ℚ := rnd (a * b)

/-- `float64` addition: exact sum, correctly rounded. -/
def fadd (a b : ℚ) : ℚ := rnd (a + b)

/-- The `float64` value of the Go literal `0.299`. -/
def c299 : ℚ := rnd (299 / 1000)

/-- The `float64` value of the Go literal `0.587`. -/
def c587 : ℚ := rnd (587 / 1000)

/-- The `float64` value of the Go literal `0.114`. -/
def c114 : ℚ := rnd (114 / 1000)

/-- The exact value of the Go expression
`0.299*red + 0.587*green + 0.114*blue` (left-associated `float64`
multiply-accumulate) on 8-bit channel values. -/
def lum (R G B : ℕ) : ℚ := fadd (fadd (fmul c299 R) (fmul c587 G)) (fmul c114 B)

/-- `math.Round`: round to the nearest integer, half away from zero. -/
def roundHalfAway (x : ℚ) : ℤ :=
  if x < 0 then -⌊-x + 1 / 2⌋ else ⌊x + 1 / 2⌋

/-- Go's non-constant conversion of an integral `float64` to `uint8`,
as compiled by gc: truncate to a 64-bit integer, keep the low byte.
(The Go spec leaves the out-of-range case implementation-dependent;
in range the conversion is exact.) -/
def uint8OfInt (n : ℤ) : ℕ := (n % 256).toNat

/-- The Go expression `uint8(math.Round(0.299*red + 0.587*green + 0.114*blue))`
on 8-bit channel values. -/
def greyValue (R G B : ℕ) : ℕ := uint8OfInt (roundHalfAway (lum R G B))

/-! ### Colors and images -/

/-- A `color.Color`, represented by the quadruple its `RGBA()` method
returns: alpha-premultiplied red, green, blue, alpha, each in `[0, 0xFFFF]`. -/
structure Color16 where
  r : Fin 65536
  g : Fin 65536
  b : Fin 65536
  a : Fin 65536
deriving DecidableEq

/-- A `color.RGBA`: four 8-bit channels (alpha-premultiplied). -/
structure RGBA8 where
  r : ℕ
  g : ℕ
  b : ℕ
  a : ℕ
deriving DecidableEq

/-- `color.RGBAModel.Convert` followed by the `.(color.RGBA)` assertion:
`RGBA{uint8(r >> 8), uint8(g >> 8), uint8(b >> 8), uint8(a >> 8)}` on the
16-bit channels of `c.RGBA()`.  (The stdlib short-circuits when the input
already is a `color.RGBA`; that branch returns the same value as this
arithmetic, so it is not modelled separately.) -/
def rgbaModelConvert (c : Color16) : RGBA8 :=
  ⟨c.r.val / 256, c.g.val / 256, c.b.val / 256, c.a.val / 256⟩

/-- The `color.Color` view of a `color.RGBA`: its `RGBA()` method returns
each 8-bit channel `v` expanded to 16 bits as `v * 0x101`. -/
def colorOfRGBA8 (r g b a : Fin 256) : Color16 :=
  ⟨⟨r.val * 257, by have := r.isLt; omega⟩,
   ⟨g.val * 257, by have := g.isLt; omega⟩,
   ⟨b.val * 257, by have := b.isLt; omega⟩,
   ⟨a.val * 257, by have := a.isLt; omega⟩⟩

/-- An `image.Image` with a canonical bounds rectangle
`[minX, minX+w) × [minY, minY+h)` (so `Bounds().Size() = (w, h)`) and its
total `At` method. -/
structure GoImage where
  minX : ℤ
  minY : ℤ
  w : ℕ
  h : ℕ
  At : ℤ → ℤ → Color16

/-- The `image.RGBA` built by `toGreyscale`: bounds
`[minX, minX+w) × [minY, minY+h)` and stored 8-bit pixels; `pix` is its
`At` method, which returns the zero pixel outside the bounds. -/
structure RGBAImage where
  minX : ℤ
  minY : ℤ
  w : ℕ
  h : ℕ
  pix : ℤ → ℤ → RGBA8

/-- The per-pixel body of `toGreyscale`'s loop: normalize to `color.RGBA`,
compute the luminosity grey, keep the original alpha. -/
def greyPixel (c : Color16) : RGBA8 :=
  ⟨greyValue (rgbaModelConvert c).r (rgbaModelConvert c).g (rgbaModelConvert c).b,
   greyValue (rgbaModelConvert c).r (rgbaModelConvert c).g (rgbaModelConvert c).b,
   greyValue (rgbaModelConvert c).r (rgbaModelConvert c).g (rgbaModelConvert c).b,
   (rgbaModelConvert c).a⟩

/-- `toGreyscale`: allocate `image.NewRGBA(image.Rect(0, 0, size.X, size.Y))`
and, for every `0 ≤ x < size.X`, `0 ≤ y < size.Y`, set pixel `(x, y)` to the
greyscale of `originalImage.At(x, y)` (absolute coordinates). -/
def toGreyscale (src : GoImage) : RGBAImage :=
  { minX := 0
    minY := 0
    w := src.w
    h := src.h
    pix := fun x y =>
      if 0 ≤ x ∧ x < (src.w : ℤ) ∧ 0 ≤ y ∧ y < (src.h : ℤ) then
        greyPixel (src.At x y)
      else ⟨0, 0, 0, 0⟩ }

/-! ### Output-path derivation (`filepath.Ext`, `strings.TrimSuffix`) -/

/-- Helper for `filepath.Ext`: scanning the reversed path, collect the
characters up to and including the first `'.'`, failing on a path
separator or the end of the string (the loop
`for i := len(path)-1; i >= 0 && !os.IsPathSeparator(path[i]); i--`). -/
def goExtRevAux : List Char → Option (List Char)
  | [] => none
  | c :: rest =>
    if c = '/' then none
    else if c = '.' then some [c]
    else Option.map (fun s => c :: s) (goExtRevAux rest)

/-- `filepath.Ext`: the suffix beginning at the final dot in the final
path element; empty if there is no dot. -/
def goExt (p : List Char) : List Char :=
  match goExtRevAux p.reverse with
  | none => []
  | some s => s.reverse

/-- `strings.TrimSuffix s suffix`: drop `suffix` from the end of `s` when
present, otherwise return `s` unchanged. -/
def goTrimSuffix (s suffix : List Char) : List Char :=
  if suffix.isSuffixOf s then s.take (s.length - suffix.length) else s

/-- The output filename computed by `main`:
`fmt.Sprintf("%s_greyscale%s", strings.TrimSuffix(p, filepath.Ext(p)), filepath.Ext(p))`. -/
def outputFilename (p : List Char) : List Char :=
  goTrimSuffix p (goExt p) ++ "_greyscale".toList ++ goExt p

/-- Helper for the spec's reading of the extension: scanning the reversed
path, collect the characters up to and including the first `'.'`
anywhere in the path (no stop at path separators). -/
def lastDotSuffixAux : List Char → Option (List Char)
  | [] => none
  | c :: rest =>
    if c = '.' then some [c]
    else Option.map (fun s => c :: s) (lastDotSuffixAux rest)

/-- The extension as the claim words it: the substring from the last `'.'`
of the whole path to the end (including the dot), empty if the path has
no dot. -/
def claimExt (p : List Char) : List Char :=
  match lastDotSuffixAux p.reverse with
  | none => []
  | some s => s.reverse

/-- The output path exactly as the claim describes it:
`base(P) ++ "_greyscale" ++ E` with `E = claimExt P` and `base(P)` the
path with that trailing `E` removed. -/
def claimOutput (p : List Char) : List Char :=
  p.take (p.length - (claimExt p).length) ++ "_greyscale".toList ++ claimExt p

/-- The final path element: the suffix of the path after its last `'/'`. -/
def afterLastSlash (p : List Char) : List Char :=
  (p.reverse.takeWhile (fun c => c != '/')).reverse

/-! ### Encoder dispatch (`encodeImage`) -/

/-- The action `encodeImage` takes: which serializer it hands the image to
(with the options it passes), or the error it returns instead. -/
inductive EncodeCall where
  | jpegEncode (quality : ℤ)
  | pngEncode
  | gifEncode
  | errorUnsupported (msg : String)
deriving DecidableEq

/-- `encodeImage`'s dispatch on the format tag: JPEG at quality 90, PNG,
GIF with nil options, otherwise
`fmt.Errorf("unsupported output format: %s", format)`. -/
def encodeImage (format : String) : EncodeCall :=
  if format = "jpeg" then .jpegEncode 90
  else if format = "png" then .pngEncode
  else if format = "gif" then .gifEncode
  else .errorUnsupported ("unsupported output format: " ++ format)

/-! ### Concrete images used to instantiate the theorems -/

/-- A 1×1 image whose only pixel is opaque pure red. -/
def imgRed : GoImage :=
  { minX := 0, minY := 0, w := 1, h := 1, At := fun _ _ => ⟨65535, 0, 0, 65535⟩ }

/-- The same 1×1 opaque red image, with the pixel presented as an 8-bit
`color.RGBA` value. -/
def imgRed8 : GoImage :=
  { minX := 0, minY := 0, w := 1, h := 1, At := fun _ _ => colorOfRGBA8 255 0 0 255 }

/-- A 0×0 image. -/
def img00 : GoImage :=
  { minX := 0, minY := 0, w := 0, h := 0, At := fun _ _ => ⟨0, 0, 0, 0⟩ }

/-- A 2×1 image whose bounds rectangle starts at `(5, 0)` rather than the
origin. -/
def imgOffset : GoImage :=
  { minX := 5, minY := 0, w := 2, h := 1, At := fun _ _ => ⟨65535, 0, 0, 65535⟩ }

/-- A 1×1 image whose only pixel is the already-grey `color.RGBA`
`(77, 77, 77, 200)` (16-bit channels `77*257` and `200*257`). -/
def imgGrey : GoImage :=
  { minX := 0, minY := 0, w := 1, h := 1, At := fun _ _ => ⟨19789, 19789, 19789, 51400⟩ }

/-! ### Correctness of the binary64 rounding model -/

theorem log2floor_correct (f : ℕ) : ∀ q : ℚ, 0 < q → 1 ≤ q * 2 ^ f → q < 2 ^ f →
    (2 : ℚ) ^ log2floor f q ≤ q ∧ q < (2 : ℚ) ^ (log2floor f q + 1) := by
  induction f with
  | zero =>
    intro q _ h1 h2
    simp only [pow_zero, mul_one] at h1 h2
    linarith
  | succ f ih =>
    intro q hq h1 h2
    by_cases hlt1 : q < 1
    · rcases Nat.eq_zero_or_pos f with hf | hf
      · subst hf
        have hL : log2floor 1 q = -1 := by simp [log2floor, if_pos hlt1]
        rw [hL]
        have h1' : 1 ≤ q * 2 := by simpa using h1
        have einv : (2:ℚ) ^ (-1 : ℤ) = 1 / 2 := by norm_num
        have e0 : (2:ℚ) ^ (-1 + 1 : ℤ) = 1 := by norm_num
        rw [einv, e0]
        constructor <;> linarith
      · have hf1 : (2 : ℚ) ≤ 2 ^ f := by
          calc (2:ℚ) = 2 ^ 1 := (pow_one 2).symm
          _ ≤ 2 ^ f := pow_le_pow_right₀ (by norm_num) hf
        have ihh := ih (2 * q) (by linarith)
          (by rw [pow_succ] at h1; nlinarith)
          (by nlinarith)
        have hL : log2floor (f + 1) q = log2floor f (2 * q) - 1 := by
          rw [log2floor, if_pos hlt1]
        rw [hL]
        obtain ⟨ih1, ih2⟩ := ihh
        have e1 : (2:ℚ) ^ log2floor f (2 * q) = 2 ^ (log2floor f (2 * q) - 1) * 2 := by
          rw [← zpow_add_one₀ (by norm_num : (2:ℚ) ≠ 0)]
          ring_nf
        have e2 : (2:ℚ) ^ (log2floor f (2 * q) + 1) = 2 ^ log2floor f (2 * q) * 2 := by
          rw [zpow_add_one₀ (by norm_num : (2:ℚ) ≠ 0)]
        have e3 : (2:ℚ) ^ (log2floor f (2 * q) - 1 + 1) = 2 ^ log2floor f (2 * q) := by
          ring_nf
        rw [e3]
        rw [e1] at ih1
        rw [e2] at ih2
        constructor <;> linarith
    · by_cases hlt2 : q < 2
      · have hL : log2floor (f + 1) q = 0 := by
          rw [log2floor, if_neg hlt1, if_pos hlt2]
        rw [hL]
        have e0 : (2:ℚ) ^ (0 : ℤ) = 1 := by norm_num
        have e1 : (2:ℚ) ^ (0 + 1 : ℤ) = 2 := by norm_num
        rw [e0, e1]
        constructor <;> linarith
      · have hf2 : (1 : ℚ) ≤ 2 ^ f := one_le_pow₀ (by norm_num)
        have hq2 : (2 : ℚ) ≤ q := not_lt.mp hlt2
        have ihh := ih (q / 2) (by linarith)
          (by rw [div_mul_eq_mul_div, le_div_iff₀ (by norm_num : (0:ℚ) < 2)]; nlinarith)
          (by rw [div_lt_iff₀ (by norm_num : (0:ℚ) < 2), ← pow_succ]; exact h2)
        have hL : log2floor (f + 1) q = log2floor f (q / 2) + 1 := by
          rw [log2floor, if_neg hlt1, if_neg hlt2]
        rw [hL]
        obtain ⟨ih1, ih2⟩ := ihh
        have e1 : (2:ℚ) ^ (log2floor f (q / 2) + 1) = 2 ^ log2floor f (q / 2) * 2 := by
          rw [zpow_add_one₀ (by norm_num : (2:ℚ) ≠ 0)]
        have e2 : (2:ℚ) ^ (log2floor f (q / 2) + 1 + 1) = 2 ^ (log2floor f (q / 2) + 1) * 2 := by
          rw [zpow_add_one₀ (by norm_num : (2:ℚ) ≠ 0)]
        rw [e1] at ih2
        constructor
        · rw [e1]
          linarith
        · rw [e2]
          linarith

theorem roundHalfEven_bounds (m : ℚ) :
    m - 1 / 2 ≤ (roundHalfEven m : ℚ) ∧ (roundHalfEven m : ℚ) ≤ m + 1 / 2 := by
  have h1 : (⌊m⌋ : ℚ) ≤ m := Int.floor_le m
  have h2 : m < ⌊m⌋ + 1 := Int.lt_floor_add_one m
  unfold roundHalfEven
  split_ifs with ha hb hc <;> constructor <;> push_cast <;> linarith

theorem rndPos_eq (q : ℚ) :
    rndPos q =
      (roundHalfEven (q * (2 : ℚ) ^ (52 - log2floor 120 q)) : ℚ) *
        (2 : ℚ) ^ (log2floor 120 q - 52) := by
  unfold rndPos
  split_ifs with h
  · have e1 : ((2 : ℚ) ^ (log2floor 120 q - 52).toNat) = (2 : ℚ) ^ (log2floor 120 q - 52) := by
      rw [← zpow_natCast]
      congr 1
      omega
    have e2 : (52 - log2floor 120 q) = -(log2floor 120 q - 52) := by ring
    rw [e1, e2, zpow_neg, div_eq_mul_inv]
  · have e1 : ((2 : ℚ) ^ (52 - log2floor 120 q).toNat) = (2 : ℚ) ^ (52 - log2floor 120 q) := by
      rw [← zpow_natCast]
      congr 1
      omega
    have e2 : (log2floor 120 q - 52) = -(52 - log2floor 120 q) := by ring
    rw [e1, e2, zpow_neg, div_eq_mul_inv]

theorem rnd_zero : rnd 0 = 0 := by
  simp [rnd]

theorem rnd_bounds (q : ℚ) (h : q = 0 ∨ 1 / 32 ≤ q) (hu : q ≤ 2 ^ (61 : ℕ)) :
    q - q / 2 ^ (53 : ℕ) ≤ rnd q ∧ rnd q ≤ q + q / 2 ^ (53 : ℕ) := by
  rcases h with h | h
  · subst h
    rw [rnd_zero]
    norm_num
  · have hq : 0 < q := by linarith
    have hr : rnd q = rndPos q := by
      rw [rnd, if_neg (by linarith), if_neg (by linarith)]
    have hcor := log2floor_correct 120 q hq
      (by nlinarith [pow_pos (by norm_num : (0:ℚ) < 2) 120,
        (by norm_num : ((2:ℚ) ^ (120:ℕ)) = 2 ^ (61:ℕ) * 2 ^ (59:ℕ)),
        pow_pos (by norm_num : (0:ℚ) < 2) 59])
      (by nlinarith [(by norm_num : (2:ℚ) ^ (61:ℕ) < 2 ^ (120:ℕ))])
    obtain ⟨hk1, hk2⟩ := hcor
    rw [hr, rndPos_eq]
    have ht : (0 : ℚ) < (2 : ℚ) ^ (log2floor 120 q - 52) :=
      zpow_pos (by norm_num) _
    have hts : (0 : ℚ) < (2 : ℚ) ^ (52 - log2floor 120 q) :=
      zpow_pos (by norm_num) _
    have hmt : q * (2 : ℚ) ^ (52 - log2floor 120 q) * (2 : ℚ) ^ (log2floor 120 q - 52) = q := by
      rw [mul_assoc, ← zpow_add₀ (by norm_num : (2:ℚ) ≠ 0)]
      norm_num
    have hhalf : (1 / 2 : ℚ) * (2 : ℚ) ^ (log2floor 120 q - 52) ≤ q / 2 ^ (53 : ℕ) := by
      have e1 : (1 / 2 : ℚ) * (2 : ℚ) ^ (log2floor 120 q - 52) =
          (2 : ℚ) ^ (log2floor 120 q) * (2 : ℚ) ^ (-(53 : ℤ)) := by
        rw [← zpow_add₀ (by norm_num : (2:ℚ) ≠ 0)]
        have : (1 / 2 : ℚ) = (2 : ℚ) ^ (-(1 : ℤ)) := by norm_num
        rw [this, ← zpow_add₀ (by norm_num : (2:ℚ) ≠ 0)]
        congr 1
        ring
      have e2 : q / 2 ^ (53 : ℕ) = q * (2 : ℚ) ^ (-(53 : ℤ)) := by
        rw [zpow_neg, div_eq_mul_inv]
        congr 1
      rw [e1, e2]
      exact mul_le_mul_of_nonneg_right hk1 (zpow_pos (by norm_num : (0:ℚ) < 2) _).le
    obtain ⟨hm1, hm2⟩ := roundHalfEven_bounds (q * (2 : ℚ) ^ (52 - log2floor 120 q))
    constructor
    · have := mul_le_mul_of_nonneg_right hm1 ht.le
      nlinarith
    · have := mul_le_mul_of_nonneg_right hm2 ht.le
      nlinarith

theorem rnd_near (q : ℚ) (h1 : 1 / 20 ≤ q) (h2 : q ≤ 400) :
    q - 1 / 1000 ≤ rnd q ∧ rnd q ≤ q + 1 / 1000 := by
  have hb := rnd_bounds q (Or.inr (by linarith))
    (by nlinarith [(by norm_num : (400 : ℚ) ≤ 2 ^ (61 : ℕ))])
  have hsm : q / 2 ^ (53 : ℕ) ≤ 1 / 1000 := by
    rw [div_le_iff₀ (by positivity)]
    nlinarith [(by norm_num : (400000 : ℚ) ≤ 2 ^ (53 : ℕ))]
  have hsm0 : 0 ≤ q / 2 ^ (53 : ℕ) := by positivity
  constructor <;> linarith [hb.1, hb.2]

theorem fmul_nat_bounds (c : ℚ) (hc1 : 1 / 9 ≤ c) (hc2 : c ≤ 3 / 5)
    (n M : ℕ) (hnM : n ≤ M) (hM : M ≤ 255) :
    0 ≤ fmul c n ∧ (fmul c n = 0 ∨ 1 / 10 ≤ fmul c n) ∧
      fmul c n ≤ c * M + 1 / 1000 := by
  have hM0 : (0 : ℚ) ≤ (M : ℚ) := Nat.cast_nonneg M
  rcases Nat.eq_zero_or_pos n with hn | hn
  · subst hn
    have h0 : fmul c (0 : ℕ) = 0 := by
      rw [fmul]
      norm_num [rnd_zero]
    rw [h0]
    exact ⟨le_refl 0, Or.inl rfl, by nlinarith⟩
  · have hn1 : (1 : ℚ) ≤ (n : ℚ) := by exact_mod_cast hn
    have hnM' : (n : ℚ) ≤ (M : ℚ) := by exact_mod_cast hnM
    have hM' : (M : ℚ) ≤ 255 := by exact_mod_cast hM
    have hq1 : 1 / 9 ≤ c * n := by nlinarith
    have hq2 : c * n ≤ c * M := by nlinarith
    have hq3 : c * M ≤ 153 := by nlinarith
    have hb := rnd_near (c * n) (by linarith) (by linarith)
    have he : fmul c n = rnd (c * n) := rfl
    rw [he]
    exact ⟨by linarith [hb.1], Or.inr (by linarith [hb.1]), by linarith [hb.2]⟩

theorem fadd_bounds (t a b A B : ℚ) (htl : 1 / 20 ≤ t) (_htu : t ≤ 400)
    (ha0 : 0 ≤ a) (haz : a = 0 ∨ t ≤ a) (haA : a ≤ A)
    (hb0 : 0 ≤ b) (hbz : b = 0 ∨ t ≤ b) (hbB : b ≤ B)
    (hAB : A + B ≤ 400) :
    0 ≤ fadd a b ∧ (fadd a b = 0 ∨ t - 1 / 1000 ≤ fadd a b) ∧
      fadd a b ≤ A + B + 1 / 1000 := by
  have hA0 : 0 ≤ A := le_trans ha0 haA
  have hB0 : 0 ≤ B := le_trans hb0 hbB
  by_cases hzz : a = 0 ∧ b = 0
  · obtain ⟨hza, hzb⟩ := hzz
    subst hza
    subst hzb
    have h0 : fadd (0 : ℚ) 0 = 0 := by
      rw [fadd]
      norm_num [rnd_zero]
    rw [h0]
    exact ⟨le_refl 0, Or.inl rfl, by linarith⟩
  · have hq : t ≤ a + b := by
      rcases haz with haz | haz
      · rcases hbz with hbz | hbz
        · exact absurd ⟨haz, hbz⟩ hzz
        · linarith
      · linarith
    have hb' := rnd_near (a + b) (by linarith) (by linarith)
    have he : fadd a b = rnd (a + b) := rfl
    rw [he]
    exact ⟨by linarith [hb'.1], Or.inr (by linarith [hb'.1]), by linarith [hb'.2]⟩

theorem coeff_bounds :
    (1 / 9 ≤ c299 ∧ c299 ≤ 3 / 5) ∧ (1 / 9 ≤ c587 ∧ c587 ≤ 3 / 5) ∧
      (1 / 9 ≤ c114 ∧ c114 ≤ 3 / 5) ∧ c299 + c587 + c114 ≤ 1 := by decide

theorem lum_bounds (R G B M : ℕ) (hR : R ≤ M) (hG : G ≤ M) (hB : B ≤ M)
    (hM : M ≤ 255) : 0 ≤ lum R G B ∧ lum R G B < (M : ℚ) + 1 / 2 := by
  obtain ⟨⟨hc1l, hc1u⟩, ⟨hc2l, hc2u⟩, ⟨hc3l, hc3u⟩, hcs⟩ := coeff_bounds
  have hM0 : (0 : ℚ) ≤ (M : ℚ) := Nat.cast_nonneg M
  have hM' : (M : ℚ) ≤ 255 := by exact_mod_cast hM
  obtain ⟨h1p, h1z, h1u⟩ := fmul_nat_bounds c299 hc1l hc1u R M hR hM
  obtain ⟨h2p, h2z, h2u⟩ := fmul_nat_bounds c587 hc2l hc2u G M hG hM
  obtain ⟨h3p, h3z, h3u⟩ := fmul_nat_bounds c114 hc3l hc3u B M hB hM
  obtain ⟨h12p, h12z, h12u⟩ := fadd_bounds (1 / 10) (fmul c299 R) (fmul c587 G)
    (c299 * M + 1 / 1000) (c587 * M + 1 / 1000)
    (by norm_num) (by norm_num) h1p h1z h1u h2p h2z h2u (by nlinarith)
  obtain ⟨hsp, _, hsu⟩ := fadd_bounds (99 / 1000)
    (fadd (fmul c299 R) (fmul c587 G)) (fmul c114 B)
    (c299 * M + c587 * M + 3 / 1000) (c114 * M + 1 / 1000)
    (by norm_num) (by norm_num) h12p
    (h12z.imp id (by intro h; linarith)) (by linarith)
    h3p (h3z.imp id (by intro h; linarith)) h3u (by nlinarith)
  refine ⟨hsp, ?_⟩
  have : lum R G B = fadd (fadd (fmul c299 R) (fmul c587 G)) (fmul c114 B) := rfl
  rw [this]
  nlinarith

theorem roundHalfAway_lum_bounds (R G B M : ℕ) (hR : R ≤ M) (hG : G ≤ M)
    (hB : B ≤ M) (hM : M ≤ 255) :
    0 ≤ roundHalfAway (lum R G B) ∧ roundHalfAway (lum R G B) ≤ (M : ℤ) := by
  obtain ⟨h0, hlt⟩ := lum_bounds R G B M hR hG hB hM
  rw [roundHalfAway, if_neg (not_lt.mpr h0)]
  constructor
  · exact Int.le_floor.mpr (by push_cast; linarith)
  · have hfl : ⌊lum R G B + 1 / 2⌋ < (M : ℤ) + 1 := by
      rw [Int.floor_lt]
      push_cast
      linarith
    omega

theorem greyValue_eq_round (R G B M : ℕ) (hR : R ≤ M) (hG : G ≤ M)
    (hB : B ≤ M) (hM : M ≤ 255) :
    greyValue R G B = (roundHalfAway (lum R G B)).toNat ∧ greyValue R G B ≤ M := by
  obtain ⟨h0, hM'⟩ := roundHalfAway_lum_bounds R G B M hR hG hB hM
  rw [greyValue, uint8OfInt]
  have hmod : roundHalfAway (lum R G B) % 256 = roundHalfAway (lum R G B) := by omega
  rw [hmod]
  exact ⟨rfl, by omega⟩

/-! ### Properties of the output-path computation -/

theorem goExtRevAux_eq (r : List Char) :
    goExtRevAux r = lastDotSuffixAux (r.takeWhile (fun c => c != '/')) := by
  induction r with
  | nil => rfl
  | cons c rest ih =>
    by_cases h1 : c = '/'
    · subst h1
      simp [goExtRevAux, lastDotSuffixAux]
    · by_cases h2 : c = '.'
      · subst h2
        simp [goExtRevAux, lastDotSuffixAux]
      · simp [goExtRevAux, lastDotSuffixAux, h1, h2, ih]

theorem goExtRevAux_front (r : List Char) :
    ∀ s : List Char, goExtRevAux r = some s → s <+: r := by
  induction r with
  | nil => intro s h; simp [goExtRevAux] at h
  | cons c rest ih =>
    intro s h
    rw [goExtRevAux] at h
    by_cases h1 : c = '/'
    · rw [if_pos h1] at h
      simp at h
    · rw [if_neg h1] at h
      by_cases h2 : c = '.'
      · rw [if_pos h2] at h
        simp only [Option.some.injEq] at h
        subst h
        exact ⟨rest, rfl⟩
      · rw [if_neg h2] at h
        rcases hrec : goExtRevAux rest with _ | s'
        · rw [hrec] at h
          simp at h
        · rw [hrec] at h
          simp at h
          subst h
          obtain ⟨t, ht⟩ := ih s' hrec
          exact ⟨t, by rw [List.cons_append, ht]⟩

theorem goExt_suffix (p : List Char) : goExt p <:+ p := by
  rw [goExt]
  rcases h : goExtRevAux p.reverse with _ | s
  · exact List.nil_suffix
  · obtain ⟨t, ht⟩ := goExtRevAux_front p.reverse s h
    refine ⟨t.reverse, ?_⟩
    have : (s ++ t).reverse = p.reverse.reverse := by rw [ht]
    rw [List.reverse_append, List.reverse_reverse] at this
    exact this

theorem goExt_eq_lastDot_of_lastElement (p : List Char) :
    goExt p = claimExt (afterLastSlash p) := by
  rw [goExt, claimExt, afterLastSlash, List.reverse_reverse, goExtRevAux_eq]

/-! ### The claims -/

/-- C2: `toGreyscale` preserves width and height for every valid source
image; in particular a 0×0 source yields a 0×0 output (the operation is
total, so it cannot fail on it). -/
theorem toGreyscale_dims :
    (∀ src : GoImage, (toGreyscale src).w = src.w ∧ (toGreyscale src).h = src.h) ∧
      (toGreyscale img00).w = 0 ∧ (toGreyscale img00).h = 0 :=
  ⟨fun _ => ⟨rfl, rfl⟩, rfl, rfl⟩

/-- C3: every pixel of the image returned by `toGreyscale` satisfies
Red == Green == Blue (written pixels carry the single grey value in all
three color channels, and unwritten out-of-bounds reads return the zero
pixel). -/
theorem toGreyscale_grey_invariant (src : GoImage) (x y : ℤ) :
    ((toGreyscale src).pix x y).r = ((toGreyscale src).pix x y).g ∧
      ((toGreyscale src).pix x y).g = ((toGreyscale src).pix x y).b := by
  dsimp [toGreyscale, greyPixel]
  split <;> exact ⟨rfl, rfl⟩

/-- C4: normalization is exact on sources already in 8-bit RGBA form
(`RGBAModel.Convert` returns exactly the stored channels), and the
greyscale output is a function of the canonical 16-bit `RGBA()` view
alone, so two sources of the same size that agree under the common color
model produce identical output images bit for bit. -/
theorem normalization_exact :
    (∀ r g b a : Fin 256,
        rgbaModelConvert (colorOfRGBA8 r g b a) = ⟨r.val, g.val, b.val, a.val⟩) ∧
      ∀ A B : GoImage, A.w = B.w → A.h = B.h → (∀ x y : ℤ, A.At x y = B.At x y) →
        toGreyscale A = toGreyscale B := by
  constructor
  · intro r g b a
    have key : ∀ v : ℕ, v < 256 → v * 257 / 256 = v := by
      intro v hv
      omega
    show RGBA8.mk (r.val * 257 / 256) (g.val * 257 / 256) (b.val * 257 / 256)
        (a.val * 257 / 256) = _
    rw [key r.val r.isLt, key g.val g.isLt, key b.val b.isLt, key a.val a.isLt]
  · intro A B hw hh hAt
    have hA : A.At = B.At := funext fun x => funext fun y => hAt x y
    rw [toGreyscale, toGreyscale, hw, hh, hA]

/-- Witness for C4 at concrete inputs: converting the 8-bit pixel
`(255, 0, 0, 255)` reads back exactly those channels, and the 1×1 red
image gives the same output whether its pixel is presented as raw 16-bit
channels or as a `color.RGBA`. -/
theorem normalization_exact_witness :
    rgbaModelConvert (colorOfRGBA8 255 0 0 255) = ⟨255, 0, 0, 255⟩ ∧
      toGreyscale imgRed = toGreyscale imgRed8 :=
  ⟨(normalization_exact.1 255 0 0 255).trans (by decide),
   normalization_exact.2 imgRed imgRed8 rfl rfl
     (fun _ _ => (by decide : (⟨65535, 0, 0, 65535⟩ : Color16) = colorOfRGBA8 255 0 0 255))⟩

/-- C7 (counterexample): on the input path `a.b/c` the program produces
`a.b/c_greyscale` (the final path element has no dot, so the extension is
empty), while the claim's formula — extension from the last dot of the
whole path — gives `a_greyscale.b/c`. -/
theorem outputFilename_claim_counterexample :
    outputFilename ("a.b/c".toList) = "a.b/c_greyscale".toList ∧
      claimOutput ("a.b/c".toList) = "a_greyscale.b/c".toList ∧
      outputFilename ("a.b/c".toList) ≠ claimOutput ("a.b/c".toList) := by
  decide

/-- C7 (amended): the output path is `base(P) ++ "_greyscale" ++ E`, where
`E` is the substring of `P` from the last `'.'` occurring in the final
path element (after the last `'/'`) to the end — empty when that element
has no dot — and `base(P)` is `P` with that trailing `E` removed. -/
theorem outputFilename_formula (p : List Char) :
    goExt p = claimExt (afterLastSlash p) ∧ goExt p <:+ p ∧
      outputFilename p =
        p.take (p.length - (goExt p).length) ++ "_greyscale".toList ++ goExt p := by
  refine ⟨goExt_eq_lastDot_of_lastElement p, goExt_suffix p, ?_⟩
  have h : (goExt p).isSuffixOf p = true :=
    List.isSuffixOf_iff_suffix.mpr (goExt_suffix p)
  rw [outputFilename, goTrimSuffix, if_pos h]

/-- C8: `encodeImage` dispatches `jpeg`/`png`/`gif` to the matching
serializer (JPEG at quality 90, GIF with nil options) and returns the
`unsupported output format` error, carrying the offending tag, for every
other tag — without calling any serializer. -/
theorem encodeImage_dispatch :
    (encodeImage "jpeg" = .jpegEncode 90 ∧ encodeImage "png" = .pngEncode ∧
        encodeImage "gif" = .gifEncode) ∧
      ∀ f : String, f ≠ "jpeg" → f ≠ "png" → f ≠ "gif" →
        encodeImage f = .errorUnsupported ("unsupported output format: " ++ f) := by
  refine ⟨⟨by decide, by decide, by decide⟩, ?_⟩
  intro f h1 h2 h3
  rw [encodeImage, if_neg h1, if_neg h2, if_neg h3]

/-- Witness for C8 at the concrete unsupported tag `bmp`. -/
theorem encodeImage_dispatch_witness :
    encodeImage "bmp" = .errorUnsupported "unsupported output format: bmp" :=
  (encodeImage_dispatch.2 "bmp" (by decide) (by decide) (by decide)).trans (by decide)

theorem rgbaModelConvert_le (c : Color16) :
    (rgbaModelConvert c).r ≤ 255 ∧ (rgbaModelConvert c).g ≤ 255 ∧
      (rgbaModelConvert c).b ≤ 255 ∧ (rgbaModelConvert c).a ≤ 255 := by
  have h1 := c.r.isLt
  have h2 := c.g.isLt
  have h3 := c.b.isLt
  have h4 := c.a.isLt
  rw [rgbaModelConvert]
  refine ⟨?_, ?_, ?_, ?_⟩ <;> dsimp <;> omega

/-- C1: inside the bounds, the output pixel of `toGreyscale` is
`(grey, grey, grey, A)` where `A` is the normalized 8-bit alpha of the
source pixel copied unchanged and `grey` is
`round(0.299*R + 0.587*G + 0.114*B)` — the multiply-accumulate carried
out in `float64`, rounded half away from zero (`math.Round`); the value
always lies in `[0, 255]`, so the `uint8` conversion returns it
exactly. -/
theorem toGreyscale_pixel_formula (src : GoImage) (x y : ℤ)
    (hx0 : 0 ≤ x) (hxw : x < (src.w : ℤ)) (hy0 : 0 ≤ y) (hyh : y < (src.h : ℤ)) :
    (toGreyscale src).pix x y =
      ⟨(roundHalfAway (lum (rgbaModelConvert (src.At x y)).r
          (rgbaModelConvert (src.At x y)).g (rgbaModelConvert (src.At x y)).b)).toNat,
        (roundHalfAway (lum (rgbaModelConvert (src.At x y)).r
          (rgbaModelConvert (src.At x y)).g (rgbaModelConvert (src.At x y)).b)).toNat,
        (roundHalfAway (lum (rgbaModelConvert (src.At x y)).r
          (rgbaModelConvert (src.At x y)).g (rgbaModelConvert (src.At x y)).b)).toNat,
        (rgbaModelConvert (src.At x y)).a⟩ := by
  obtain ⟨hr, hg, hb, _⟩ := rgbaModelConvert_le (src.At x y)
  obtain ⟨heq, _⟩ := greyValue_eq_round (rgbaModelConvert (src.At x y)).r
    (rgbaModelConvert (src.At x y)).g (rgbaModelConvert (src.At x y)).b 255 hr hg hb le_rfl
  dsimp [toGreyscale]
  rw [if_pos ⟨hx0, hxw, hy0, hyh⟩, greyPixel, heq]

/-- Witness for C1 at a 1×1 pure-red image: the output pixel is
`(76, 76, 76, 255)`, matching `round(0.299*255) = 76`. -/
theorem toGreyscale_pixel_formula_witness :
    (toGreyscale imgRed).pix 0 0 = ⟨76, 76, 76, 255⟩ :=
  (toGreyscale_pixel_formula imgRed 0 0 (by decide) (by decide) (by decide)
    (by decide)).trans (by decide)

/-- C5 (counterexample): the 8-bit conversion in `toGreyscale` is the
plain Go `uint8` conversion, which does not clamp: applied to the value
256 it yields 0 (wrap-around under the gc compiler's conversion through a
64-bit integer; the Go specification merely leaves the out-of-range case
implementation-dependent), not 255 as the claim asserts. -/
theorem uint8_conversion_no_clamp : uint8OfInt 256 = 0 ∧ uint8OfInt 256 ≠ 255 := by
  decide

/-- C5 (amended): the rounded luminosity value never equals 256 — for all
8-bit channel inputs it lies in `[0, 255]` — so the `uint8` conversion
returns it unchanged and no clamping is needed (nor performed). -/
theorem rounded_luminosity_in_range (R G B : ℕ)
    (hR : R ≤ 255) (hG : G ≤ 255) (hB : B ≤ 255) :
    roundHalfAway (lum R G B) ≠ 256 ∧ 0 ≤ roundHalfAway (lum R G B) ∧
      roundHalfAway (lum R G B) ≤ 255 ∧
      greyValue R G B = (roundHalfAway (lum R G B)).toNat := by
  obtain ⟨h0, h255⟩ := roundHalfAway_lum_bounds R G B 255 hR hG hB le_rfl
  obtain ⟨heq, _⟩ := greyValue_eq_round R G B 255 hR hG hB le_rfl
  have h255' : roundHalfAway (lum R G B) ≤ 255 := by exact_mod_cast h255
  exact ⟨by omega, h0, h255', heq⟩

/-- Witness for C5 (amended) at the extreme input `(255, 255, 255)`. -/
theorem rounded_luminosity_in_range_witness :
    roundHalfAway (lum 255 255 255) ≠ 256 ∧ 0 ≤ roundHalfAway (lum 255 255 255) ∧
      roundHalfAway (lum 255 255 255) ≤ 255 ∧
      greyValue 255 255 255 = (roundHalfAway (lum 255 255 255)).toNat :=
  rounded_luminosity_in_range 255 255 255 (by decide) (by decide) (by decide)

set_option maxHeartbeats 4000000 in
theorem greyValue_fin_id : ∀ v : Fin 256, greyValue v.val v.val v.val = v.val := by
  decide

theorem greyValue_self (n : ℕ) (h : n ≤ 255) : greyValue n n n = n :=
  greyValue_fin_id ⟨n, by omega⟩

/-- C6: on a pixel whose normalized channels are all the same value `g`,
the computed grey equals `g` exactly, so re-converting an
already-greyscale image reproduces every pixel's grey value (alpha kept
unchanged). -/
theorem toGreyscale_idempotent (src : GoImage) (x y : ℤ)
    (hx0 : 0 ≤ x) (hxw : x < (src.w : ℤ)) (hy0 : 0 ≤ y) (hyh : y < (src.h : ℤ))
    (hrg : (rgbaModelConvert (src.At x y)).r = (rgbaModelConvert (src.At x y)).g)
    (hgb : (rgbaModelConvert (src.At x y)).g = (rgbaModelConvert (src.At x y)).b) :
    (toGreyscale src).pix x y =
      ⟨(rgbaModelConvert (src.At x y)).r, (rgbaModelConvert (src.At x y)).r,
        (rgbaModelConvert (src.At x y)).r, (rgbaModelConvert (src.At x y)).a⟩ := by
  obtain ⟨hr255, _, _, _⟩ := rgbaModelConvert_le (src.At x y)
  have hg' : (rgbaModelConvert (src.At x y)).g = (rgbaModelConvert (src.At x y)).r :=
    hrg.symm
  have hb' : (rgbaModelConvert (src.At x y)).b = (rgbaModelConvert (src.At x y)).r := by
    rw [← hgb, hg']
  dsimp [toGreyscale]
  rw [if_pos ⟨hx0, hxw, hy0, hyh⟩, greyPixel, hg', hb',
    greyValue_self _ hr255]

/-- Witness for C6 at a 1×1 image whose pixel is the grey
`color.RGBA (77, 77, 77, 200)`. -/
theorem toGreyscale_idempotent_witness :
    (toGreyscale imgGrey).pix 0 0 = ⟨77, 77, 77, 200⟩ :=
  (toGreyscale_idempotent imgGrey 0 0 (by decide) (by decide) (by decide) (by decide)
    (by decide) (by decide)).trans (by decide)

/-- C9: the output image's bounds start at the origin; the source is read
through `At` at the absolute coordinates `(x, y)` for `0 ≤ x < w`,
`0 ≤ y < h` regardless of the source's bounds origin, so each output
pixel is the greyscale of `src.At x y`; and whenever the source's bounds
minimum is not `(0, 0)` (and the image is non-empty), some of those reads
fall outside the source's own pixel rectangle. -/
theorem toGreyscale_absolute_sampling (src : GoImage) :
    (toGreyscale src).minX = 0 ∧ (toGreyscale src).minY = 0 ∧
      (∀ x y : ℤ, 0 ≤ x → x < (src.w : ℤ) → 0 ≤ y → y < (src.h : ℤ) →
        (toGreyscale src).pix x y = greyPixel (src.At x y)) ∧
      (0 < src.w → 0 < src.h → src.minX ≠ 0 ∨ src.minY ≠ 0 →
        ∃ x y : ℤ, 0 ≤ x ∧ x < (src.w : ℤ) ∧ 0 ≤ y ∧ y < (src.h : ℤ) ∧
          ¬(src.minX ≤ x ∧ x < src.minX + (src.w : ℤ) ∧
            src.minY ≤ y ∧ y < src.minY + (src.h : ℤ))) := by
  refine ⟨rfl, rfl, ?_, ?_⟩
  · intro x y hx0 hxw hy0 hyh
    dsimp [toGreyscale]
    rw [if_pos ⟨hx0, hxw, hy0, hyh⟩]
  · intro hw hh hmin
    rcases hmin with hx | hy
    · rcases lt_trichotomy src.minX 0 with h | h | h
      · exact ⟨(src.w : ℤ) - 1, 0, by omega, by omega, by omega, by omega, by omega⟩
      · exact absurd h hx
      · exact ⟨0, 0, by omega, by omega, by omega, by omega, by omega⟩
    · rcases lt_trichotomy src.minY 0 with h | h | h
      · exact ⟨0, (src.h : ℤ) - 1, by omega, by omega, by omega, by omega, by omega⟩
      · exact absurd h hy
      · exact ⟨0, 0, by omega, by omega, by omega, by omega, by omega⟩

/-- Witness for C9 at a 2×1 image whose bounds start at `(5, 0)`. -/
theorem toGreyscale_absolute_sampling_witness :
    (toGreyscale imgOffset).minX = 0 ∧
      ∃ x y : ℤ, 0 ≤ x ∧ x < (imgOffset.w : ℤ) ∧ 0 ≤ y ∧ y < (imgOffset.h : ℤ) ∧
        ¬(imgOffset.minX ≤ x ∧ x < imgOffset.minX + (imgOffset.w : ℤ) ∧
          imgOffset.minY ≤ y ∧ y < imgOffset.minY + (imgOffset.h : ℤ)) :=
  ⟨(toGreyscale_absolute_sampling imgOffset).1,
    (toGreyscale_absolute_sampling imgOffset).2.2.2 (by decide) (by decide)
      (Or.inl (by decide))⟩

/-- C10: when every source color honors the `color.Color`
alpha-premultiplication contract (each 16-bit color channel at most the
16-bit alpha), the normalized 8-bit channels satisfy `R, G, B ≤ A`, every
output pixel of `toGreyscale` is a valid premultiplied color (each
channel at most its alpha), and a pixel whose output alpha is 0 comes out
as `(0, 0, 0, 0)`. -/
theorem toGreyscale_premultiplied (src : GoImage)
    (hpre : ∀ x y : ℤ, (src.At x y).r ≤ (src.At x y).a ∧
      (src.At x y).g ≤ (src.At x y).a ∧ (src.At x y).b ≤ (src.At x y).a) :
    ∀ x y : ℤ,
      ((rgbaModelConvert (src.At x y)).r ≤ (rgbaModelConvert (src.At x y)).a ∧
        (rgbaModelConvert (src.At x y)).g ≤ (rgbaModelConvert (src.At x y)).a ∧
        (rgbaModelConvert (src.At x y)).b ≤ (rgbaModelConvert (src.At x y)).a) ∧
      (((toGreyscale src).pix x y).r ≤ ((toGreyscale src).pix x y).a ∧
        ((toGreyscale src).pix x y).g ≤ ((toGreyscale src).pix x y).a ∧
        ((toGreyscale src).pix x y).b ≤ ((toGreyscale src).pix x y).a) ∧
      (((toGreyscale src).pix x y).a = 0 → (toGreyscale src).pix x y = ⟨0, 0, 0, 0⟩) := by
  intro x y
  obtain ⟨hra, hga, hba⟩ := hpre x y
  have hnr : (rgbaModelConvert (src.At x y)).r ≤ (rgbaModelConvert (src.At x y)).a :=
    Nat.div_le_div_right hra
  have hng : (rgbaModelConvert (src.At x y)).g ≤ (rgbaModelConvert (src.At x y)).a :=
    Nat.div_le_div_right hga
  have hnb : (rgbaModelConvert (src.At x y)).b ≤ (rgbaModelConvert (src.At x y)).a :=
    Nat.div_le_div_right hba
  refine ⟨⟨hnr, hng, hnb⟩, ?_⟩
  dsimp [toGreyscale]
  by_cases hin : 0 ≤ x ∧ x < (src.w : ℤ) ∧ 0 ≤ y ∧ y < (src.h : ℤ)
  · rw [if_pos hin, greyPixel]
    obtain ⟨_, _, _, ha255⟩ := rgbaModelConvert_le (src.At x y)
    have hle := (greyValue_eq_round (rgbaModelConvert (src.At x y)).r
      (rgbaModelConvert (src.At x y)).g (rgbaModelConvert (src.At x y)).b
      ((rgbaModelConvert (src.At x y)).a) hnr hng hnb ha255).2
    refine ⟨⟨hle, hle, hle⟩, ?_⟩
    intro ha0
    dsimp at ha0
    have hr0 : (rgbaModelConvert (src.At x y)).r = 0 := by omega
    have hg0 : (rgbaModelConvert (src.At x y)).g = 0 := by omega
    have hb0 : (rgbaModelConvert (src.At x y)).b = 0 := by omega
    rw [hr0, hg0, hb0, ha0]
    have h000 : greyValue 0 0 0 = 0 := by decide
    rw [h000]
  · rw [if_neg hin]
    exact ⟨⟨le_rfl, le_rfl, le_rfl⟩, fun _ => rfl⟩

/-- Witness for C10 at the 1×1 opaque pure-red image. -/
theorem toGreyscale_premultiplied_witness :
    ((toGreyscale imgRed).pix 0 0).r ≤ ((toGreyscale imgRed).pix 0 0).a ∧
      (((toGreyscale imgRed).pix 0 0).a = 0 →
        (toGreyscale imgRed).pix 0 0 = ⟨0, 0, 0, 0⟩) := by
  have hc : (Color16.mk 65535 0 0 65535).r ≤ (Color16.mk 65535 0 0 65535).a ∧
      (Color16.mk 65535 0 0 65535).g ≤ (Color16.mk 65535 0 0 65535).a ∧
      (Color16.mk 65535 0 0 65535).b ≤ (Color16.mk 65535 0 0 65535).a := by decide
  exact ⟨((toGreyscale_premultiplied imgRed (fun _ _ => hc)) 0 0).2.1.1,
    ((toGreyscale_premultiplied imgRed (fun _ _ => hc)) 0 0).2.2⟩
